import Mathlib

/-!
Shallow embedding of the `hash32` crate (`src/lib.rs`).

Bytes are modelled as `Nat` values below 256, machine integers as `Nat`
(or `Int` for signed values) with explicit reduction modulo powers of two.
A `Hasher` (the trait at src/lib.rs:143-153) is modelled as a state type
`σ` together with its `write` and `finish` operations; the built-in `Hash`
implementations of `lib.rs` are translated as functions threading such a
state. The concrete hasher `catHasher` records the exact byte stream a
`Hash` implementation pushes, so that statements about "the bytes written"
can be made and evaluated.

The `fnv` and `murmur3` modules are declared (`mod fnv; mod murmur3;`,
src/lib.rs:72-73) and re-exported, but their source files are not part of
this snapshot; the FNV-1a engine is therefore modelled from the spec where
a claim needs it.
-/

/-- The `Hasher` trait (src/lib.rs:143-153): an accumulator of state type
`σ` with `write` consuming a byte slice and `finish` yielding the 32-bit
digest. -/
structure HasherM (σ : Type) where
  write : σ → List Nat → σ
  finish : σ → Nat

/-- A concrete conforming hasher used to observe the exact byte stream a
`Hash` implementation pushes: the state is the list of all bytes written so
far, `write` appends, and `finish` reports the number of bytes consumed. -/
def catHasher : HasherM (List Nat) where
  write := fun st bs => st ++ bs
  finish := fun st => st.length

/-- The fixed-size native-byte-order representation of an integer value on a
little-endian host: `w` bytes, least significant first. This is the
`mem::transmute::<$ty, [u8; mem::size_of::<$ty>()]>` of the `int!` macro
(src/lib.rs:183). -/
def intBytes : Nat → Nat → List Nat
  | 0, _ => []
  | w + 1, v => (v % 256) :: intBytes w (v / 256)

/-- Little-endian byte-list decoding, inverse of `intBytes`; used to show
that `intBytes` is the full, information-preserving representation. -/
def fromBytes : List Nat → Nat
  | [] => 0
  | b :: bs => b + 256 * fromBytes bs

/-- The provided default body of `Hash::hash_slice` (src/lib.rs:165-173):
call `hash` on each element in order. `hashFn` is the element type's `hash`
implementation, already applied to a hasher. -/
def hash_slice_default {σ α : Type} (hashFn : α → σ → σ)
    (data : List α) (st : σ) : σ :=
  data.foldl (fun acc piece => hashFn piece acc) st

/-- `int!` `hash` (src/lib.rs:179-184): a single `write` of the value's
fixed-size native-byte-order representation; `w` is `mem::size_of::<$ty>()`. -/
def int_hash {σ : Type} (M : HasherM σ) (w : Nat) (v : Nat) (st : σ) : σ :=
  M.write st (intBytes w v)

/-- `int!`'s overridden `hash_slice` (src/lib.rs:186-193): a single `write`
of `data.len() * size_of::<$ty>()` bytes taken contiguously from the slice's
memory, i.e. the concatenation of the elements' native representations. -/
def int_hash_slice {σ : Type} (M : HasherM σ) (w : Nat)
    (data : List Nat) (st : σ) : σ :=
  M.write st ((data.map (intBytes w)).flatten)

/-- `impl Hash for str` (src/lib.rs:227-235): write the raw UTF-8 bytes
(`self.as_bytes()`, the string being modelled as its byte list `s`), then
write the single sentinel byte `0xff`. -/
def str_hash {σ : Type} (M : HasherM σ) (s : List Nat) (st : σ) : σ :=
  M.write (M.write st s) [0xff]

/-- `impl<T> Hash for [T]` (src/lib.rs:237-248): hash the slice's length as
a `usize` via the integer rule (`u` is `mem::size_of::<usize>()`), then
delegate to `T::hash_slice` (passed in as `hashSliceT`). -/
def slice_hash {σ α : Type} (M : HasherM σ) (u : Nat)
    (hashSliceT : List α → σ → σ) (data : List α) (st : σ) : σ :=
  hashSliceT data (int_hash M u data.length st)

/-- The `array!` macro's `impl<T> Hash for [T; $n]` for `$n` in 0..=32
(src/lib.rs:250-271): `Hash::hash(&self[..], state)` — delegate directly to
the slice rule over the same elements. The bound `_hn` records that the
macro only instantiates lengths 0 through 32, and `_hd` that the value is an
`n`-element array. -/
def array_hash {σ α : Type} (M : HasherM σ) (u : Nat)
    (hashSliceT : List α → σ → σ) (n : Nat) (_hn : n ≤ 32)
    (data : List α) (_hd : data.length = n) (st : σ) : σ :=
  slice_hash M u hashSliceT data st

/-- `int!(u64)`'s `hash` (src/lib.rs:205): width 8 bytes; the `u64` value is
modelled as a `Nat` reduced modulo 2^64. -/
def u64_hash {σ : Type} (M : HasherM σ) (v : Nat) (st : σ) : σ :=
  int_hash M 8 (v % 2 ^ 64) st

/-- `int!(i64)`'s `hash` (src/lib.rs:200): width 8 bytes; the `i64` value is
modelled as an `Int`, its bytes being those of its two's-complement
representative in `[0, 2^64)`. -/
def i64_hash {σ : Type} (M : HasherM σ) (v : Int) (st : σ) : σ :=
  int_hash M 8 (v % (2 : Int) ^ 64).toNat st

/-- `BuildHasherDefault<H>` (src/lib.rs:78-83): zero-sized, its only field a
`PhantomData<H>` marker carrying no data. -/
structure BuildHasherDefault (H : Type) : Type

/-- `impl<H> BuildHasher for BuildHasherDefault<H>` (src/lib.rs:109-118):
`build_hasher` returns `H::default()`; `dflt` models the `Default` instance
of `H`. -/
def build_hasher {H : Type} (dflt : H) (_b : BuildHasherDefault H) : H :=
  dflt

/-- Feed a sequence of `write` calls, in order, into a hasher state. -/
def applyWrites {σ : Type} (M : HasherM σ) (st : σ) (ws : List (List Nat)) : σ :=
  ws.foldl M.write st

/-- Modelled from the spec: the FNV-1a 32 offset basis (§4.2). The `fnv`
module holding `FnvHasher` (re-exported at src/lib.rs:69) is not part of the
source snapshot, so the engine is taken from the spec's description. -/
def fnvDefault : Nat := 2166136261

/-- Modelled from the spec: one FNV-1a 32 step — `hash = (hash ^ b) *
16777619` with wrapping 32-bit multiplication (§4.2). -/
def fnvStep (h b : Nat) : Nat := ((h ^^^ b) * 16777619) % 2 ^ 32

/-- Modelled from the spec: `FnvHasher::write` processes each byte of the
input in order with `fnvStep` (§4.2). -/
def fnvWrite (h : Nat) (bs : List Nat) : Nat := bs.foldl fnvStep h

/-- Modelled from the spec: `FnvHasher::finish` returns the accumulator
unchanged (§4.2). -/
def fnvFinish (h : Nat) : Nat := h

/-- The FNV-1a 32 engine packaged as a `HasherM`. -/
def fnvHasherM : HasherM Nat where
  write := fnvWrite
  finish := fnvFinish

theorem length_intBytes (w : Nat) : ∀ v, (intBytes w v).length = w := by
  induction w with
  | zero => intro v; rfl
  | succ w ih => intro v; simp [intBytes, ih]

theorem fromBytes_intBytes (w : Nat) :
    ∀ v, fromBytes (intBytes w v) = v % 2 ^ (8 * w) := by
  induction w with
  | zero => intro v; simp [intBytes, fromBytes, Nat.mod_one]
  | succ w ih =>
      intro v
      have h2 : (2 : Nat) ^ (8 * (w + 1)) = 256 * 2 ^ (8 * w) := by
        rw [show 8 * (w + 1) = 8 + 8 * w from by ring, pow_add]
        norm_num
      simp only [intBytes, fromBytes, ih]
      rw [h2, Nat.mod_mul]

theorem slice_hash_stream_aux {α : Type} (u : Nat)
    (hashSliceT : List α → List Nat → List Nat) (f : List α → List Nat)
    (hT : ∀ data st, hashSliceT data st = st ++ f data)
    (data : List α) (st : List Nat) :
    slice_hash catHasher u hashSliceT data st =
      st ++ intBytes u data.length ++ f data := by
  simp [slice_hash, int_hash, catHasher, hT]

theorem hash_slice_default_absF {σ : Type} (M : HasherM σ) (absF : σ → List Nat)
    (hW : ∀ st bs, absF (M.write st bs) = absF st ++ bs) (w : Nat) :
    ∀ (data : List Nat) (st : σ),
      absF (hash_slice_default (int_hash M w) data st) =
        absF st ++ (data.map (intBytes w)).flatten := by
  intro data
  induction data with
  | nil => intro st; simp [hash_slice_default]
  | cons x xs ih =>
      intro st
      have h1 : hash_slice_default (int_hash M w) (x :: xs) st =
          hash_slice_default (int_hash M w) xs (int_hash M w x st) := rfl
      rw [h1, ih, int_hash, hW]
      simp

/-- C1: hashing a string via the `str` `Hash` implementation pushes into the
hasher exactly the string's raw UTF-8 bytes (`s`, since a `str` value is
modelled as its UTF-8 byte list) followed by the single sentinel byte 0xFF,
and nothing else: from any prior stream `st`, the recorded stream is exactly
`st ++ s ++ [0xff]`. -/
theorem str_hash_stream (s st : List Nat) :
    str_hash catHasher s st = st ++ (s ++ [0xff]) := by
  simp [str_hash, catHasher]

/-- C2: the slice `Hash` implementation first writes the slice's length via
the integer rule (its fixed-size native-byte-order representation, `u`
bytes for a `usize`) and then delegates to the element type's `hash_slice`
(whose byte contribution is `f data`), in that order, with no other bytes
written by the slice rule itself. -/
theorem slice_hash_stream {α : Type} (u : Nat)
    (hashSliceT : List α → List Nat → List Nat) (f : List α → List Nat)
    (hT : ∀ data st, hashSliceT data st = st ++ f data)
    (data : List α) (st : List Nat) :
    slice_hash catHasher u hashSliceT data st =
      st ++ intBytes u data.length ++ f data :=
  slice_hash_stream_aux u hashSliceT f hT data st

/-- Witness for C2 at a concrete input: a slice of two one-byte integers
with a 4-byte `usize`. -/
theorem slice_hash_stream_witness :
    slice_hash catHasher 4 (int_hash_slice catHasher 1) [7, 8] [] =
      [2, 0, 0, 0, 7, 8] :=
  (slice_hash_stream 4 (int_hash_slice catHasher 1)
      (fun d => (d.map (intBytes 1)).flatten)
      (fun data st => by simp [int_hash_slice, catHasher]) [7, 8] []).trans
    (by decide)

/-- C3: hashing a fixed-size array of `n` elements (for every length `n` the
`array!` macro instantiates, i.e. `n ≤ 32`) into any hasher yields the same
digest as hashing the equal-length slice view of the same elements: the
array rule delegates directly to the slice rule with no extra framing. -/
theorem array_hash_eq_slice_hash {σ α : Type} (M : HasherM σ) (u : Nat)
    (hashSliceT : List α → σ → σ) (n : Nat) (hn : n ≤ 32)
    (data : List α) (hd : data.length = n) (st : σ) :
    M.finish (array_hash M u hashSliceT n hn data hd st) =
      M.finish (slice_hash M u hashSliceT data st) := rfl

/-- Witness for C3 at a concrete input: a two-element array of one-byte
integers, hashed with the stream-recording hasher. -/
theorem array_hash_eq_slice_hash_witness :
    catHasher.finish
        (array_hash catHasher 4 (int_hash_slice catHasher 1) 2 (by decide)
          [7, 8] (by decide) []) =
      catHasher.finish
        (slice_hash catHasher 4 (int_hash_slice catHasher 1) [7, 8] []) :=
  array_hash_eq_slice_hash catHasher 4 (int_hash_slice catHasher 1) 2
    (by decide) [7, 8] (by decide) []

/-- C4: for a fixed-width integer type of `w` bytes, a slice of that type
and any conforming hasher — conforming meaning its digest is a function of
the concatenated byte stream, expressed by an abstraction `absF` of the
state to the bytes written so far that `finish` factors through — the
overridden `hash_slice` (one contiguous write of all element bytes)
produces the same digest as the default `hash_slice` behavior of calling
`hash` on each element in order. -/
theorem int_hash_slice_eq_default {σ : Type} (M : HasherM σ)
    (absF : σ → List Nat)
    (hW : ∀ st bs, absF (M.write st bs) = absF st ++ bs)
    (hF : ∀ st1 st2, absF st1 = absF st2 → M.finish st1 = M.finish st2)
    (w : Nat) (data : List Nat) (st : σ) :
    M.finish (int_hash_slice M w data st) =
      M.finish (hash_slice_default (int_hash M w) data st) := by
  apply hF
  rw [int_hash_slice, hW, hash_slice_default_absF M absF hW]

/-- Witness for C4 at a concrete input: the stream-recording hasher (whose
state is literally the bytes written, so `absF` is the identity), a 2-byte
integer type and the slice `[3, 4]`. -/
theorem int_hash_slice_eq_default_witness :
    catHasher.finish (int_hash_slice catHasher 2 [3, 4] []) =
      catHasher.finish (hash_slice_default (int_hash catHasher 2) [3, 4] []) :=
  int_hash_slice_eq_default catHasher (fun st => st)
    (fun st bs => rfl)
    (fun st1 st2 h => by rw [show st1 = st2 from h])
    2 [3, 4] []

/-- C5: hashing the two-element string sequence ["ab", "c"] (UTF-8 bytes
[97, 98] and [99]) via the slice-of-string rule yields a different byte
stream — hence a different digest — from hashing ["a", "bc"] ([97] and
[98, 99]), for every `usize` width `u`: the 0xFF sentinel after each string
marks the field boundary. -/
theorem str_slice_framing (u : Nat) :
    slice_hash catHasher u (hash_slice_default (str_hash catHasher))
        [[97, 98], [99]] [] ≠
      slice_hash catHasher u (hash_slice_default (str_hash catHasher))
        [[97], [98, 99]] [] := by
  have h1 : slice_hash catHasher u (hash_slice_default (str_hash catHasher))
      [[97, 98], [99]] [] = intBytes u 2 ++ [97, 98, 255, 99, 255] := by
    simp [slice_hash, hash_slice_default, str_hash, int_hash, catHasher]
  have h2 : slice_hash catHasher u (hash_slice_default (str_hash catHasher))
      [[97], [98, 99]] [] = intBytes u 2 ++ [97, 255, 98, 99, 255] := by
    simp [slice_hash, hash_slice_default, str_hash, int_hash, catHasher]
  rw [h1, h2]
  intro h
  exact absurd (List.append_cancel_left h) (by decide)

/-- C6: the FNV-1a 32 engine (modelled from the spec, its module being
absent from the snapshot) starts at the offset basis 2166136261 =
0x811c9dc5; `write` processes each byte `b` in order as
`hash = (hash ^ b) * 16777619` wrapping modulo 2^32; `finish` returns the
accumulator unchanged; hence the digest of the empty input is 0x811c9dc5
and the digest of the single byte 0x61 is 0xe40c292c. -/
theorem fnv_spec :
    fnvDefault = 0x811c9dc5 ∧
    (∀ h bs b, fnvWrite h (bs ++ [b]) =
      ((fnvWrite h bs ^^^ b) * 16777619) % 2 ^ 32) ∧
    (∀ h, fnvFinish h = h) ∧
    fnvFinish (fnvWrite fnvDefault []) = 0x811c9dc5 ∧
    fnvFinish (fnvWrite fnvDefault [0x61]) = 0xe40c292c := by
  refine ⟨rfl, ?_, fun h => rfl, rfl, by decide⟩
  intro h bs b
  simp [fnvWrite, fnvStep, List.foldl_append]

/-- C7: `BuildHasherDefault::<H>::build_hasher` returns exactly
`H::default()` (here `dflt`); the factory is stateless (any two factory
values are equal, so building a hasher can neither depend on nor mutate
factory state); and two hashers obtained from any factories, given the same
sequence of writes, produce equal digests. -/
theorem build_hasher_spec {H : Type} (M : HasherM H) (dflt : H) :
    (∀ b : BuildHasherDefault H, build_hasher dflt b = dflt) ∧
    (∀ b1 b2 : BuildHasherDefault H, b1 = b2) ∧
    (∀ (b1 b2 : BuildHasherDefault H) (ws : List (List Nat)),
      M.finish (applyWrites M (build_hasher dflt b1) ws) =
        M.finish (applyWrites M (build_hasher dflt b2) ws)) :=
  ⟨fun _ => rfl, fun b1 b2 => by cases b1; cases b2; rfl,
    fun _ _ _ => rfl⟩

/-- C8: hashing the empty string is not a no-op: the `str` rule still writes
the sentinel, so the byte stream pushed into the hasher is exactly the
single byte 0xFF — in particular it differs from the empty stream an
omitted field would leave. -/
theorem str_hash_empty_stream :
    str_hash catHasher [] [] = [0xff] ∧
    str_hash catHasher [] [] ≠ ([] : List Nat) := by
  exact ⟨rfl, by decide⟩

/-- C9: the length prefix written by the slice rule is the length as a
`usize`, i.e. exactly `u = size_of::<usize>()` bytes (in native byte
order), and the total bytes fed for a slice are `u` plus the element bytes;
consequently the recorded stream length differs between any two distinct
pointer widths, so slice digests depend on the platform's pointer width. -/
theorem slice_hash_usize_width {α : Type} (u : Nat)
    (hashSliceT : List α → List Nat → List Nat) (f : List α → List Nat)
    (hT : ∀ data st, hashSliceT data st = st ++ f data) (data : List α) :
    (intBytes u data.length).length = u ∧
    slice_hash catHasher u hashSliceT data [] =
      intBytes u data.length ++ f data ∧
    (slice_hash catHasher u hashSliceT data []).length = u + (f data).length ∧
    (∀ u2, u2 ≠ u →
      (slice_hash catHasher u2 hashSliceT data []).length ≠
        (slice_hash catHasher u hashSliceT data []).length) := by
  have hs : ∀ w, slice_hash catHasher w hashSliceT data [] =
      intBytes w data.length ++ f data := fun w => by
    have := slice_hash_stream_aux w hashSliceT f hT data []
    simpa using this
  have hlen : ∀ w, (slice_hash catHasher w hashSliceT data []).length =
      w + (f data).length := fun w => by
    rw [hs w]; simp [length_intBytes]
  refine ⟨length_intBytes u data.length, hs u, hlen u, ?_⟩
  intro u2 hne
  rw [hlen u, hlen u2]
  omega

/-- Witness for C9 at a concrete input: a slice of two one-byte integers,
with `usize` widths 4 and 8. -/
theorem slice_hash_usize_width_witness :
    slice_hash catHasher 4 (int_hash_slice catHasher 1) [7, 8] [] =
      intBytes 4 2 ++ [7, 8] ∧
    (slice_hash catHasher 8 (int_hash_slice catHasher 1) [7, 8] []).length ≠
      (slice_hash catHasher 4 (int_hash_slice catHasher 1) [7, 8] []).length := by
  have h := slice_hash_usize_width 4 (int_hash_slice catHasher 1)
    (fun d => (d.map (intBytes 1)).flatten)
    (fun data st => by simp [int_hash_slice, catHasher]) [7, 8]
  exact ⟨h.2.1.trans (by decide), h.2.2.2 8 (by decide)⟩

/-- C10: 64-bit integers are hashable: the `int!` macro implements `Hash`
for `u64` and `i64`, and hashing such a value writes its full fixed-size
8-byte native-byte-order representation (full in that decoding the bytes
recovers the value modulo 2^64; for `i64`, the bytes of its
two's-complement representative), the 32-bit restriction applying to the
hash arithmetic, not to the widths of hashable values. -/
theorem int64_hash_full_width :
    (∀ (v : Nat) (st : List Nat),
      u64_hash catHasher v st = st ++ intBytes 8 (v % 2 ^ 64) ∧
      (intBytes 8 (v % 2 ^ 64)).length = 8 ∧
      fromBytes (intBytes 8 (v % 2 ^ 64)) = v % 2 ^ 64) ∧
    (∀ (v : Int) (st : List Nat),
      i64_hash catHasher v st =
        st ++ intBytes 8 (v % (2 : Int) ^ 64).toNat ∧
      (intBytes 8 (v % (2 : Int) ^ 64).toNat).length = 8) := by
  constructor
  · intro v st
    refine ⟨rfl, length_intBytes 8 _, ?_⟩
    rw [fromBytes_intBytes]
    norm_num [Nat.mod_mod_of_dvd]
  · intro v st
    exact ⟨rfl, length_intBytes 8 _⟩
